import Mathlib

set_option maxRecDepth 100000

/-!
Shallow embedding, over the exact rationals ℚ, of the basis factorization
engine in BasisFactorization.cpp: a dense m×m basis B0 maintained as a
product B0 · E1 · … · En of eta matrices, an LP·U factorization of B0
obtained by Gaussian elimination with row pivoting, forward and backward
triangular solves against the implicit product, and explicit inversion
of B0.  Matrices are functions Fin m → Fin m → ℚ (row major in the
source), vectors are Fin m → ℚ.  Every floating point write of the
source that passes through the zero snapping tolerance is modelled with
an explicit snap.
-/

instance decidableListEqNil {α : Type _} (l : List α) : Decidable (l = []) :=
  match l with
  | [] => isTrue rfl
  | _ :: _ => isFalse (fun h => List.noConfusion h)

/-- Modelled from the spec: the shared comparison tolerance ε = 10⁻⁹ of
the configuration header (GlobalConfiguration is not among the sources). -/
def eps : ℚ := 1 / 1000000000

/-- Modelled from the spec: FloatUtils numeric zero test, true when |x| < ε
(the FloatUtils header is not among the sources). -/
def isZero (x : ℚ) : Prop := |x| < eps

instance (x : ℚ) : Decidable (isZero x) := inferInstanceAs (Decidable (|x| < eps))

/-- Modelled from the spec: FloatUtils strict greater-than under the shared
tolerance (the FloatUtils header is not among the sources). -/
def floatGt (x y : ℚ) : Prop := eps < x - y

instance (x y : ℚ) : Decidable (floatGt x y) := inferInstanceAs (Decidable (eps < x - y))

/-- Zero snapping of a written scalar, the source pattern
if (FloatUtils::isZero(v)) v = 0.0. -/
def snap (x : ℚ) : ℚ := if isZero x then 0 else x

/-- Modelled from the spec: GlobalConfiguration::REFACTORIZATION_THRESHOLD,
the example value 20 of the spec. -/
def REFACTORIZATION_THRESHOLD : Nat := 20

/-- A length-m vector of rationals. -/
abbrev Vec (m : Nat) := Fin m → ℚ

/-- An m×m matrix of rationals (row major buffer in the source). -/
abbrev Mat (m : Nat) := Fin m → Fin m → ℚ

/-- EtaMatrix.h: an identity matrix whose column columnIndex is replaced by
the stored column. -/
structure EtaMatrix (m : Nat) where
  columnIndex : Fin m
  column : Vec m

/-- LPElement.h: either a row permutation pair or a lower triangular eta
matrix (the source uses two nullable fields, of which exactly one is set). -/
inductive LPElement (m : Nat) where
  | perm : Fin m → Fin m → LPElement m
  | eta : EtaMatrix m → LPElement m

/-- The engine state: the fields _B0, _U, _LP, _etas, _factorizationEnabled
and the scratch vector _tempY of the BasisFactorization class.  The _LP list
is stored newest first (appendHead), the eta stack oldest first (append). -/
structure BasisFactorization (m : Nat) where
  B0 : Mat m
  U : Mat m
  LP : List (LPElement m)
  etas : List (EtaMatrix m)
  factorizationEnabled : Bool
  tempY : Vec m

/-- The m×m identity matrix. -/
def identityMat (m : Nat) : Mat m := fun i j => if i = j then 1 else 0

/-- The constructor BasisFactorization(m): B0 is the identity, both lists
empty, factorization enabled.  The buffers _U and _tempY are allocated
uninitialized in the source; they are modelled as zero. -/
def initialState (m : Nat) : BasisFactorization m :=
  ⟨identityMat m, fun _ _ => 0, [], [], true, fun _ => 0⟩

/-- BasisFactorization::matrixMultiply: the dense triple loop. -/
def matrixMultiply {m : Nat} (left right : Mat m) : Mat m :=
  fun leftRow rightCol => ∑ i, left leftRow i * right i rightCol

/-- The full m×m matrix that an EtaMatrix denotes: the identity with column
columnIndex replaced by the stored column. -/
def etaMat {m : Nat} (e : EtaMatrix m) : Mat m :=
  fun i j => if j = e.columnIndex then e.column i else if i = j then 1 else 0

/-- The full m×m matrix of a row transposition (i j). -/
def permMat {m : Nat} (a b : Fin m) : Mat m :=
  fun i j =>
    if i = a then (if j = b then 1 else 0)
    else if i = b then (if j = a then 1 else 0)
    else if i = j then 1 else 0

/-- The matrix an LP element denotes. -/
def lpMat {m : Nat} : LPElement m → Mat m
  | .perm a b => permMat a b
  | .eta e => etaMat e

/-- Apply an LP list front to back as left multiplications: the front (newest)
element is the outermost factor, so the back (oldest) element acts first. -/
def applyLP {m : Nat} (lp : List (LPElement m)) (M : Mat m) : Mat m :=
  lp.foldr (fun d acc => matrixMultiply (lpMat d) acc) M

/-- BasisFactorization::rowSwap on a matrix. -/
def rowSwap {m : Nat} (rowOne rowTwo : Fin m) (matrix : Mat m) : Mat m :=
  fun i j => if i = rowOne then matrix rowTwo j
             else if i = rowTwo then matrix rowOne j
             else matrix i j

/-- Pointwise update of a vector at one index. -/
def updVec {m : Nat} (x : Vec m) (i : Fin m) (v : ℚ) : Vec m :=
  fun j => if j = i then v else x j

/-- The row indices i+1 … m−1 scanned by the pivot search, in loop order. -/
def pivotRows (m : Nat) (i : Fin m) : List (Fin m) :=
  (List.finRange m).filter (fun j => i < j)

/-- The partial pivot search of BasisFactorization::factorizeMatrix: start
from (|U[i][i]|, i) and replace the running best by row j only when
FloatUtils::gt(|U[j][i]|, best) holds.  Returns (largestElement, bestRowIndex). -/
def pivotSearch {m : Nat} (U0 : Mat m) (i : Fin m) : ℚ × Fin m :=
  (pivotRows m i).foldl
    (fun acc j => if floatGt |U0 j i| acc.1 then (|U0 j i|, j) else acc)
    (|U0 i i|, i)

/-- The L column built at stage i: 0 below the stage, 1/div at the pivot,
−U[j][i]/div for the rows j > i. -/
def LCol {m : Nat} (U0 : Mat m) (i : Fin m) : Vec m :=
  fun j => if j = i then 1 / U0 i i
           else if i < j then -(U0 j i) / U0 i i
           else 0

/-- BasisFactorization::LFactorizationMultiply: in place application of the
stage-i eta L to U.  Rows below the pivot row first (their column i is set
to exact 0 and the later columns accumulate L[row]·U[i][col] using the old
pivot row), then the pivot row is scaled and its diagonal set to exact 1. -/
def LFactorizationMultiply {m : Nat} (U0 : Mat m) (L : EtaMatrix m) : Mat m :=
  fun row col =>
    if L.columnIndex < row then
      if col = L.columnIndex then 0
      else if L.columnIndex < col then U0 row col + L.column row * U0 L.columnIndex col
      else U0 row col
    else if row = L.columnIndex then
      if L.columnIndex < col then U0 row col * L.column L.columnIndex
      else if col = L.columnIndex then 1
      else U0 row col
    else U0 row col

/-- U after the conditional row swap of stage i: rows i and bestRowIndex are
exchanged when they differ (the source checks bestRowIndex != i). -/
def pivU1 {m : Nat} (U0 : Mat m) (i : Fin m) : Mat m :=
  if (pivotSearch U0 i).2 = i then U0 else rowSwap i (pivotSearch U0 i).2 U0

/-- The LP list after the conditional permutation element of stage i is
prepended (appendHead in the source). -/
def pivLP {m : Nat} (U0 : Mat m) (lp : List (LPElement m)) (i : Fin m) :
    List (LPElement m) :=
  if (pivotSearch U0 i).2 = i then lp
  else LPElement.perm i (pivotSearch U0 i).2 :: lp

/-- One stage of the factorization loop: pivot search, NoPivot check, row
swap (recording a permutation LP element in front), then the stage eta is
built from the swapped U, recorded in front, and applied.  The Bool is false
when the stage throws NoPivot, in which case U and the LP list are left as
they stood at the throw point. -/
def factorStep {m : Nat} (U0 : Mat m) (lp : List (LPElement m)) (i : Fin m) :
    Mat m × List (LPElement m) × Bool :=
  if isZero (pivotSearch U0 i).1 then (U0, lp, false)
  else (LFactorizationMultiply (pivU1 U0 i) ⟨i, LCol (pivU1 U0 i) i⟩,
        LPElement.eta ⟨i, LCol (pivU1 U0 i) i⟩ :: pivLP U0 lp i, true)

/-- The first n stages of BasisFactorization::factorizeMatrix, starting from
the cleared state U = matrix, LP = [] that clearLPU and the initial memcpy
establish.  A thrown NoPivot aborts the remaining stages. -/
def factorRun {m : Nat} (M : Mat m) : Nat → Mat m × List (LPElement m) × Bool
  | 0 => (M, [], true)
  | n + 1 =>
    let st := factorRun M n
    if h : n < m then
      if st.2.2 then factorStep st.1 st.2.1 ⟨n, h⟩ else st
    else st

/-- BasisFactorization::factorizeMatrix on an m×m matrix: the resulting U,
the resulting LP list (newest element first) and a success flag (false means
the NoPivot exception was thrown). -/
def factorizeMatrix {m : Nat} (M : Mat m) : Mat m × List (LPElement m) × Bool :=
  factorRun M m

/-- The call factorizeMatrix(_B0) as it appears in the source: U and the LP
list are replaced by the factorization output, B0 itself is untouched, and
the Bool reports whether the NoPivot exception escapes. -/
def refactorize {m : Nat} (s : BasisFactorization m) : BasisFactorization m × Bool :=
  (⟨s.B0, (factorizeMatrix s.B0).1, (factorizeMatrix s.B0).2.1, s.etas,
    s.factorizationEnabled, s.tempY⟩,
   (factorizeMatrix s.B0).2.2)

/-- BasisFactorization::setB0: memcpy the argument into _B0 first, then
factorize _B0 (which may throw NoPivot after _B0 was already overwritten). -/
def setB0 {m : Nat} (s : BasisFactorization m) (M : Mat m) : BasisFactorization m × Bool :=
  refactorize ⟨M, s.U, s.LP, s.etas, s.factorizationEnabled, s.tempY⟩

/-- One eta of BasisFactorization::condenseEtas: multiplying B0 on the right
by E(k, v) replaces column k of B0 by B0·v, every written scalar snapped. -/
def applyEtaRight {m : Nat} (B : Mat m) (e : EtaMatrix m) : Mat m :=
  fun i j => if j = e.columnIndex then snap (∑ k, B i k * e.column k) else B i j

/-- BasisFactorization::condenseEtas: fold the eta stack into B0 in stack
order, release the etas, then clearLPU (LP emptied, U zero filled). -/
def condenseEtas {m : Nat} (s : BasisFactorization m) : BasisFactorization m :=
  ⟨s.etas.foldl applyEtaRight s.B0, fun _ _ => 0, [], [],
   s.factorizationEnabled, s.tempY⟩

/-- BasisFactorization::pushEtaMatrix: append the eta at the tail, then, when
the stack size exceeds the threshold and factorization is enabled, condense
the etas and refactorize _B0. -/
def pushEtaMatrix {m : Nat} (s : BasisFactorization m) (columnIndex : Fin m)
    (column : Vec m) : BasisFactorization m × Bool :=
  let s1 : BasisFactorization m :=
    ⟨s.B0, s.U, s.LP, s.etas ++ [⟨columnIndex, column⟩],
     s.factorizationEnabled, s.tempY⟩
  if REFACTORIZATION_THRESHOLD < s1.etas.length ∧ s1.factorizationEnabled = true then
    refactorize (condenseEtas s1)
  else (s1, true)

/-- BasisFactorization::toggleFactorization. -/
def toggleFactorization {m : Nat} (s : BasisFactorization m) (value : Bool) :
    BasisFactorization m :=
  ⟨s.B0, s.U, s.LP, s.etas, value, s.tempY⟩

/-- BasisFactorization::LMultiplyLeft: X[col] is read once up front; the
col entry is scaled by the eta diagonal and every other entry accumulates
X[col]·L[i]; every written entry is snapped. -/
def LMultiplyLeft {m : Nat} (L : EtaMatrix m) (X : Vec m) : Vec m :=
  fun i => if i = L.columnIndex then snap (X i * L.column i)
           else snap (X i + X L.columnIndex * L.column i)

/-- BasisFactorization::LMultiplyRight: the columnIndex entry becomes the
snapped dot product of the eta column with X; all other entries unchanged. -/
def LMultiplyRight {m : Nat} (L : EtaMatrix m) (X : Vec m) : Vec m :=
  updVec X L.columnIndex (snap (∑ i, L.column i * X i))

/-- One LP element applied on the left to a vector (the LP loop of
forwardTransformation): a pair swaps two entries (no snapping), an eta is
LMultiplyLeft. -/
def applyLPLeft {m : Nat} : LPElement m → Vec m → Vec m
  | .perm a b, t => fun i => if i = a then t b else if i = b then t a else t i
  | .eta e, t => LMultiplyLeft e t

/-- One LP element applied on the right to a vector (the final loop of
backwardTransformation): a pair swaps two entries, an eta is LMultiplyRight. -/
def applyLPRight {m : Nat} : LPElement m → Vec m → Vec m
  | .perm a b, x => fun i => if i = a then x b else if i = b then x a else x i
  | .eta e, x => LMultiplyRight e x

/-- The U elimination of forwardTransformation: x[m−1] = t[m−1] (written
without snapping), then for i = m−2 down to 0,
x[i] = snap(t[i] − Σ_{j>i} U[i][j]·x[j]). -/
def forwardU {m : Nat} (U0 : Mat m) (t : Vec m) : Vec m :=
  (List.finRange m).reverse.foldl
    (fun x i => updVec x i
      (if (i : Nat) = m - 1 then t i
       else snap (t i - ∑ j ∈ Finset.univ.filter (fun j => i < j), U0 i j * x j)))
    (fun _ => 0)

/-- One eta eliminated by forwardTransformation: the columnIndex entry is
divided by the eta diagonal and every other entry i gets
t[i] − x[col]·column[i]; every written entry is snapped. -/
def forwardEta {m : Nat} (e : EtaMatrix m) (t : Vec m) : Vec m :=
  fun i => if i = e.columnIndex then snap (t e.columnIndex / e.column e.columnIndex)
           else snap (t i - snap (t e.columnIndex / e.column e.columnIndex) * e.column i)

/-- The value computed by BasisFactorization::forwardTransformation as a
function of the mathematical state (_tempY is overwritten before any read,
so the result does not depend on it). -/
def forwardCompute {m : Nat} (etas : List (EtaMatrix m)) (lp : List (LPElement m))
    (U0 : Mat m) (y : Vec m) : Vec m :=
  let t1 := lp.reverse.foldl (fun t d => applyLPLeft d t) y
  let t2 := if lp = [] then t1 else forwardU U0 t1
  etas.foldl (fun t e => forwardEta e t) t2

/-- BasisFactorization::forwardTransformation: solve B·x = y.  With no LP
elements and no etas the input is copied to the output and _tempY is not
touched; otherwise the three stages run and _tempY ends up holding the
final x (the last memcpy of each path). -/
def forwardTransformation {m : Nat} (s : BasisFactorization m) (y : Vec m) :
    BasisFactorization m × Vec m :=
  if s.etas = [] ∧ s.LP = [] then (s, y)
  else
    let x := forwardCompute s.etas s.LP s.U y
    (⟨s.B0, s.U, s.LP, s.etas, s.factorizationEnabled, x⟩, x)

/-- One eta eliminated by backwardTransformation (newest first): every entry
except columnIndex keeps its value; the columnIndex entry becomes
snap((t[col] − Σ_{i≠col} t[i]·column[i]) / column[col]). -/
def backwardEta {m : Nat} (e : EtaMatrix m) (t : Vec m) : Vec m :=
  fun i => if i = e.columnIndex then
             snap ((t e.columnIndex -
               ∑ j ∈ Finset.univ.filter (fun j => j ≠ e.columnIndex), t j * e.column j) /
                 e.column e.columnIndex)
           else t i

/-- The U elimination of backwardTransformation: x[0] = t[0] (written without
snapping), then for i = 1 … m−1, x[i] = snap(t[i] − Σ_{j<i} U[j][i]·x[j])
(transpose indexing _U[i + j*m] in the source). -/
def backwardU {m : Nat} (U0 : Mat m) (t : Vec m) : Vec m :=
  (List.finRange m).foldl
    (fun x i => updVec x i
      (if (i : Nat) = 0 then t i
       else snap (t i - ∑ j ∈ Finset.univ.filter (fun j => j < i), U0 j i * x j)))
    (fun _ => 0)

/-- BasisFactorization::backwardTransformation: solve x·B = y.  Etas are
eliminated newest first, then U by forward substitution (when the LP list is
non-empty), then the LP list is applied front to back on the right. -/
def backwardTransformation {m : Nat} (s : BasisFactorization m) (y : Vec m) : Vec m :=
  if s.etas = [] ∧ s.LP = [] then y
  else
    let t1 := s.etas.reverse.foldl (fun t e => backwardEta e t) y
    let t2 := if s.LP = [] then t1 else backwardU s.U t1
    s.LP.foldl (fun x d => applyLPRight d x) t2

/-- One LP element applied to the result matrix inside invertB0: a pair is a
row swap; an eta updates the rows below its pivot row using the old pivot
row, then scales the pivot row (no snapping in either loop). -/
def invertStepLP {m : Nat} (result : Mat m) : LPElement m → Mat m
  | .perm a b => rowSwap a b result
  | .eta e => fun row col =>
      if e.columnIndex < row then result row col + e.column row * result e.columnIndex col
      else if row = e.columnIndex then e.column row * result row col
      else result row col

/-- The inner row loop of the U stage of invertB0 at a fixed column col:
for row = col−1 down to 0, when U[row][col] is not numerically zero, the
whole result row accumulates −U[row][col]·result[col]. -/
def invertUColumn {m : Nat} (U0 : Mat m) (col : Fin m) (result : Mat m) : Mat m :=
  (((List.finRange m).filter (fun row => row < col)).reverse).foldl
    (fun acc row =>
      if isZero (U0 row col) then acc
      else fun r c => if r = row then acc r c - U0 row col * acc col c else acc r c)
    result

/-- BasisFactorization::invertB0: throws (none) when the eta stack is not
empty; otherwise starts from the identity, returns it outright when the LP
list is empty (B0 is then the identity by convention, U is never read), and
otherwise applies the LP elements oldest first and then the U elimination
for col = m−1 down to 1. -/
def invertB0 {m : Nat} (s : BasisFactorization m) : Option (Mat m) :=
  if s.etas = [] then
    if s.LP = [] then some (identityMat m)
    else
      let r1 := s.LP.reverse.foldl invertStepLP (identityMat m)
      some ((((List.finRange m).filter (fun c : Fin m => 0 < (c : Nat))).reverse).foldl
        (fun r c => invertUColumn s.U c r) r1)
  else none

/-- The implicit basis B = B0 · E1 · … · En represented by a state. -/
def implicitBasis {m : Nat} (s : BasisFactorization m) : Mat m :=
  s.etas.foldl (fun B e => matrixMultiply B (etaMat e)) s.B0

/-- The generic running-best fold of the pivot search, abstracted over the
scored value f of each row. -/
def pivotFold {m : Nat} (f : Fin m → ℚ) (l : List (Fin m)) (acc : ℚ × Fin m) :
    ℚ × Fin m :=
  l.foldl (fun a j => if floatGt (f j) a.1 then (f j, j) else a) acc

/-- The 3×3 matrix of spec scenario S3. -/
def M3 : Mat 3 := ![![2, 4, -2], ![4, 9, -3], ![-2, -3, 7]]

/-- The all-zero 1×1 matrix, numerically singular at any tolerance. -/
def zeroMat1 : Mat 1 := fun _ _ => 0

theorem eps_pos : 0 < eps := by norm_num [eps]

theorem floatGt_irrefl (x : ℚ) : ¬ floatGt x x := by
  unfold floatGt
  intro h
  rw [sub_self] at h
  exact absurd (lt_trans eps_pos h) (lt_irrefl _)

theorem not_floatGt_iff {x y : ℚ} : ¬ floatGt x y ↔ x ≤ y + eps := by
  unfold floatGt
  constructor
  · intro h
    linarith [not_lt.mp h]
  · intro h h2
    linarith

theorem applyLP_nil {m : Nat} (M : Mat m) : applyLP [] M = M := rfl

theorem applyLP_cons {m : Nat} (d : LPElement m) (lp : List (LPElement m)) (M : Mat m) :
    applyLP (d :: lp) M = matrixMultiply (lpMat d) (applyLP lp M) := rfl

/-- Multiplying by a transposition matrix on the left swaps the two rows. -/
theorem matrixMultiply_permMat {m : Nat} (a b : Fin m) (X : Mat m) :
    matrixMultiply (permMat a b) X = rowSwap a b X := by
  funext i j
  unfold matrixMultiply permMat rowSwap
  by_cases hia : i = a
  · simp only [if_pos hia]
    simp [ite_mul]
  · simp only [if_neg hia]
    by_cases hib : i = b
    · simp only [if_pos hib]
      simp [ite_mul]
    · simp only [if_neg hib]
      simp [ite_mul]

/-- Multiplying by the full matrix of an eta on the left: the columnIndex row
is scaled by the eta diagonal, every other row r accumulates
column[r]·X[columnIndex]. -/
theorem matrixMultiply_etaMat {m : Nat} (e : EtaMatrix m) (X : Mat m) :
    matrixMultiply (etaMat e) X = fun r c =>
      if r = e.columnIndex then e.column r * X e.columnIndex c
      else X r c + e.column r * X e.columnIndex c := by
  funext r c
  show (∑ k, etaMat e r k * X k c) = _
  have hU : (Finset.univ : Finset (Fin m)) =
      insert e.columnIndex (Finset.univ.erase e.columnIndex) :=
    (Finset.insert_erase (Finset.mem_univ _)).symm
  rw [hU, Finset.sum_insert (Finset.not_mem_erase _ _)]
  have h2 : ∀ k ∈ Finset.univ.erase e.columnIndex,
      etaMat e r k * X k c =
        if k = r then (if r = e.columnIndex then 0 else X r c) else 0 := by
    intro k hk
    have hkne : k ≠ e.columnIndex := (Finset.mem_erase.mp hk).1
    unfold etaMat
    rw [if_neg hkne]
    by_cases hkr : k = r
    · subst hkr
      rw [if_pos rfl, if_pos rfl, one_mul, if_neg (fun h => hkne h)]
    · rw [if_neg (fun h => hkr h.symm), zero_mul, if_neg hkr]
  rw [Finset.sum_congr rfl h2, Finset.sum_ite_eq' (Finset.univ.erase e.columnIndex) r _]
  unfold etaMat
  rw [if_pos rfl]
  by_cases hr : r = e.columnIndex
  · simp [hr, Finset.mem_erase]
  · simp only [if_neg hr]
    rw [if_pos (Finset.mem_erase.mpr ⟨hr, Finset.mem_univ r⟩)]
    ring

/-- The in-place elimination step of the source agrees with exact left
multiplication by the stage eta, provided the pivot is non-zero and the
pivot row is zero strictly left of the diagonal. -/
theorem LFactorizationMultiply_eq {m : Nat} (U1 : Mat m) (i : Fin m)
    (hdiv : U1 i i ≠ 0) (hz : ∀ c : Fin m, c < i → U1 i c = 0) :
    LFactorizationMultiply U1 ⟨i, LCol U1 i⟩ =
      matrixMultiply (etaMat ⟨i, LCol U1 i⟩) U1 := by
  rw [matrixMultiply_etaMat]
  funext r c
  unfold LFactorizationMultiply LCol
  dsimp only
  rcases lt_trichotomy i r with hir | hir | hir
  · have hri : ¬ r = i := fun h => absurd (h ▸ hir) (lt_irrefl i)
    rw [if_pos hir, if_neg hri, if_neg hri, if_pos hir]
    rcases lt_trichotomy c i with hci | hci | hci
    · have hcine : ¬ c = i := fun h => absurd (h ▸ hci) (lt_irrefl i)
      have hic : ¬ i < c := fun h => absurd (lt_trans h hci) (lt_irrefl i)
      rw [if_neg hcine, if_neg hic, hz c hci, mul_zero, add_zero]
    · subst hci
      rw [if_pos rfl, div_mul_cancel₀ _ hdiv]
      ring
    · have hcine : ¬ c = i := fun h => absurd (h ▸ hci) (lt_irrefl i)
      rw [if_neg hcine, if_pos hci]
  · subst hir
    rw [if_neg (lt_irrefl i), if_pos rfl, if_pos rfl, if_pos rfl]
    rcases lt_trichotomy c i with hci | hci | hci
    · have hcine : ¬ c = i := fun h => absurd (h ▸ hci) (lt_irrefl i)
      have hic : ¬ i < c := fun h => absurd (lt_trans h hci) (lt_irrefl i)
      rw [if_neg hic, if_neg hcine, hz c hci, mul_zero]
    · rw [hci, if_neg (lt_irrefl i), if_pos rfl, one_div, inv_mul_cancel₀ hdiv]
    · have hcine : ¬ c = i := fun h => absurd (h ▸ hci) (lt_irrefl i)
      rw [if_pos hci]
      ring
  · have hri : ¬ r = i := fun h => absurd (h ▸ hir) (lt_irrefl r)
    have hirn : ¬ i < r := fun h => absurd (lt_trans h hir) (lt_irrefl i)
    rw [if_neg hirn, if_neg hri, if_neg hri, if_neg hri, if_neg hirn, zero_mul, add_zero]

/-- The running-best fold of the pivot search: over a sorted candidate list
whose members all lie beyond the current best row, the final best row scores
strictly above every earlier candidate row and no candidate row at all beats
its score under the tolerance comparison. -/
theorem pivotFold_spec {m : Nat} (f : Fin m → ℚ) (i : Fin m) (l : List (Fin m)) :
    ∀ acc : ℚ × Fin m, l.Pairwise (· < ·) → (∀ j ∈ l, acc.2 < j) →
      acc.1 = f acc.2 → i ≤ acc.2 →
      (∀ j : Fin m, i ≤ j → j < acc.2 → f j < acc.1) →
      (∀ j : Fin m, i ≤ j → j ∉ l → ¬ floatGt (f j) acc.1) →
      (pivotFold f l acc).1 = f (pivotFold f l acc).2 ∧
      i ≤ (pivotFold f l acc).2 ∧
      (∀ j : Fin m, i ≤ j → j < (pivotFold f l acc).2 → f j < (pivotFold f l acc).1) ∧
      (∀ j : Fin m, i ≤ j → ¬ floatGt (f j) (pivotFold f l acc).1) := by
  induction l with
  | nil =>
    intro acc _ _ hacc hile hearlier hnot
    exact ⟨hacc, hile, hearlier, fun j hij => hnot j hij (List.not_mem_nil j)⟩
  | cons r l ih =>
    intro acc hpair hbeyond hacc hile hearlier hnot
    have hpair' : l.Pairwise (· < ·) := (List.pairwise_cons.mp hpair).2
    have hrl : ∀ j ∈ l, r < j := (List.pairwise_cons.mp hpair).1
    have haccr : acc.2 < r := hbeyond r (List.mem_cons_self r l)
    by_cases hgt : floatGt (f r) acc.1
    · have hstep : pivotFold f (r :: l) acc = pivotFold f l (f r, r) := by
        simp [pivotFold, hgt]
      rw [hstep]
      have hlt : acc.1 + eps < f r := by
        unfold floatGt at hgt
        linarith
      apply ih (f r, r) hpair' hrl rfl (le_of_lt (lt_of_le_of_lt hile haccr))
      · intro j hij hjr
        rcases lt_trichotomy j acc.2 with hj | hj | hj
        · have := hearlier j hij hj
          linarith [eps_pos]
        · have : f j = acc.1 := by rw [hj, hacc]
          linarith [eps_pos]
        · have hjnot : j ∉ r :: l := by
            intro hmem
            rcases List.mem_cons.mp hmem with h | h
            · exact absurd (h ▸ hjr) (lt_irrefl r)
            · exact absurd (hrl j h) (not_lt.mpr (le_of_lt hjr))
          have := not_floatGt_iff.mp (hnot j hij hjnot)
          linarith
      · intro j hij hjl
        by_cases hjr : j = r
        · rw [hjr]
          exact floatGt_irrefl (f r)
        · have hjnot : j ∉ r :: l := by
            intro hmem
            rcases List.mem_cons.mp hmem with h | h
            · exact hjr h
            · exact hjl h
          have := not_floatGt_iff.mp (hnot j hij hjnot)
          rw [not_floatGt_iff]
          linarith [eps_pos]
    · have hstep : pivotFold f (r :: l) acc = pivotFold f l acc := by
        simp [pivotFold, hgt]
      rw [hstep]
      apply ih acc hpair'
        (fun j hj => hbeyond j (List.mem_cons_of_mem r hj)) hacc hile hearlier
      intro j hij hjl
      by_cases hjr : j = r
      · rw [hjr]
        exact hgt
      · refine hnot j hij ?_
        intro hmem
        rcases List.mem_cons.mp hmem with h | h
        · exact hjr h
        · exact hjl h

/-- The pivot search of factorizeMatrix: largestElement is the absolute value
of the chosen row entry, the chosen row is at or below the stage row, it
scores strictly above every earlier candidate (equal earlier scores keep the
earlier row), and no candidate beats largestElement under FloatUtils::gt. -/
theorem pivotSearch_spec {m : Nat} (U0 : Mat m) (i : Fin m) :
    (pivotSearch U0 i).1 = |U0 (pivotSearch U0 i).2 i| ∧
    i ≤ (pivotSearch U0 i).2 ∧
    (∀ j : Fin m, i ≤ j → j < (pivotSearch U0 i).2 →
      |U0 j i| < |U0 (pivotSearch U0 i).2 i|) ∧
    (∀ j : Fin m, i ≤ j → ¬ floatGt |U0 j i| (pivotSearch U0 i).1) := by
  have hmem : ∀ j : Fin m, j ∈ pivotRows m i ↔ i < j := by
    intro j
    simp [pivotRows, List.mem_filter, List.mem_finRange]
  have hpair : (pivotRows m i).Pairwise (· < ·) :=
    List.Pairwise.sublist (List.filter_sublist _) (List.pairwise_lt_finRange m)
  have heq : pivotSearch U0 i =
      pivotFold (fun j => |U0 j i|) (pivotRows m i) (|U0 i i|, i) := rfl
  have h := pivotFold_spec (fun j => |U0 j i|) i (pivotRows m i) (|U0 i i|, i)
    hpair (fun j hj => (hmem j).mp hj) rfl (le_refl i)
    (fun j hij hji => absurd (lt_of_le_of_lt hij hji) (lt_irrefl i))
    (fun j hij hjl => by
      have hji : ¬ i < j := fun hc => hjl ((hmem j).mpr hc)
      have : j = i := le_antisymm (not_lt.mp hji) hij
      rw [this]
      exact floatGt_irrefl _)
  rw [heq]
  obtain ⟨h1, h2, h3, h4⟩ := h
  refine ⟨h1, h2, ?_, h4⟩
  intro j hij hjb
  have := h3 j hij hjb
  rw [h1] at this
  exact this

/-- The diagonal entry at the stage row after the conditional swap is the
chosen pivot: its absolute value is largestElement. -/
theorem pivU1_diag {m : Nat} (U0 : Mat m) (i : Fin m) :
    |pivU1 U0 i i i| = (pivotSearch U0 i).1 := by
  unfold pivU1
  by_cases h : (pivotSearch U0 i).2 = i
  · rw [if_pos h, (pivotSearch_spec U0 i).1, h]
  · rw [if_neg h]
    unfold rowSwap
    rw [if_pos rfl, (pivotSearch_spec U0 i).1]

/-- When the NoPivot check passes, the post-swap diagonal entry is non-zero. -/
theorem pivU1_div_ne_zero {m : Nat} (U0 : Mat m) (i : Fin m)
    (hnz : ¬ isZero (pivotSearch U0 i).1) : pivU1 U0 i i i ≠ 0 := by
  have hd := pivU1_diag U0 i
  unfold isZero at hnz
  intro h0
  rw [h0, abs_zero] at hd
  rw [← hd, abs_zero] at hnz
  exact hnz eps_pos

/-- The three-part stage invariant of factorizeMatrix: after the first n
stages succeed, applying the recorded LP list front to back as left
multiplications to the input matrix reproduces the current U, and the first
n columns of U already carry exact 0 below the diagonal and exact 1 on it. -/
theorem factorRun_inv {m : Nat} (M : Mat m) :
    ∀ (n : Nat) (U : Mat m) (lp : List (LPElement m)),
      factorRun M n = (U, lp, true) →
      applyLP lp M = U ∧
      (∀ r c : Fin m, (c : Nat) < n → c < r → U r c = 0) ∧
      (∀ t : Fin m, (t : Nat) < n → U t t = 1) := by
  intro n
  induction n with
  | zero =>
    intro U lp h
    have hU : M = U := congrArg (fun x => x.1) h
    have hlp : ([] : List (LPElement m)) = lp := congrArg (fun x => x.2.1) h
    refine ⟨?_, ?_, ?_⟩
    · rw [← hU, ← hlp]
      rfl
    · intro r c hc
      exact absurd hc (Nat.not_lt_zero _)
    · intro t ht
      exact absurd ht (Nat.not_lt_zero _)
  | succ n ih =>
    intro U lp h
    rw [factorRun] at h
    by_cases hm : n < m
    · rw [dif_pos hm] at h
      rcases hst : factorRun M n with ⟨U0, lp0, ok0⟩
      rw [hst] at h
      cases ok0 with
      | false =>
        simp only [if_neg] at h
        have : false = true := congrArg (fun x => x.2.2) h
        exact absurd this Bool.false_ne_true
      | true =>
        simp only [if_pos] at h
        rw [factorStep] at h
        obtain ⟨ih1, ih2, ih3⟩ := ih U0 lp0 hst
        by_cases hz : isZero (pivotSearch U0 ⟨n, hm⟩).1
        · rw [if_pos hz] at h
          have : false = true := congrArg (fun x => x.2.2) h
          exact absurd this Bool.false_ne_true
        · rw [if_neg hz] at h
          have hU : U = LFactorizationMultiply (pivU1 U0 ⟨n, hm⟩)
              ⟨⟨n, hm⟩, LCol (pivU1 U0 ⟨n, hm⟩) ⟨n, hm⟩⟩ :=
            (congrArg (fun x => x.1) h).symm
          have hlp : lp = LPElement.eta ⟨⟨n, hm⟩, LCol (pivU1 U0 ⟨n, hm⟩) ⟨n, hm⟩⟩ ::
              pivLP U0 lp0 ⟨n, hm⟩ :=
            (congrArg (fun x => x.2.1) h).symm
          have hbest : (⟨n, hm⟩ : Fin m) ≤ (pivotSearch U0 ⟨n, hm⟩).2 :=
            (pivotSearch_spec U0 ⟨n, hm⟩).2.1
          -- the invariant transferred through the conditional row swap
          have inv1b : ∀ r c : Fin m, (c : Nat) < n → c < r → pivU1 U0 ⟨n, hm⟩ r c = 0 := by
            intro r c hcn hcr
            have hci : c < (⟨n, hm⟩ : Fin m) := by
              rw [Fin.lt_def]
              exact hcn
            unfold pivU1
            by_cases hbi : (pivotSearch U0 ⟨n, hm⟩).2 = ⟨n, hm⟩
            · rw [if_pos hbi]
              exact ih2 r c hcn hcr
            · rw [if_neg hbi]
              unfold rowSwap
              by_cases hri : r = ⟨n, hm⟩
              · rw [if_pos hri]
                exact ih2 _ c hcn (lt_of_lt_of_le hci hbest)
              · rw [if_neg hri]
                by_cases hrb : r = (pivotSearch U0 ⟨n, hm⟩).2
                · rw [if_pos hrb]
                  exact ih2 _ c hcn hci
                · rw [if_neg hrb]
                  exact ih2 r c hcn hcr
          have inv1c : ∀ t : Fin m, (t : Nat) < n → pivU1 U0 ⟨n, hm⟩ t t = 1 := by
            intro t htn
            have hti : t < (⟨n, hm⟩ : Fin m) := by
              rw [Fin.lt_def]
              exact htn
            unfold pivU1
            by_cases hbi : (pivotSearch U0 ⟨n, hm⟩).2 = ⟨n, hm⟩
            · rw [if_pos hbi]
              exact ih3 t htn
            · rw [if_neg hbi]
              unfold rowSwap
              rw [if_neg (fun hc : t = (⟨n, hm⟩ : Fin m) => absurd (hc ▸ hti) (lt_irrefl _)),
                  if_neg (fun hc : t = (pivotSearch U0 ⟨n, hm⟩).2 =>
                    absurd (lt_of_lt_of_le (hc ▸ hti) hbest) (lt_irrefl _))]
              exact ih3 t htn
          have inv1a : applyLP (pivLP U0 lp0 ⟨n, hm⟩) M = pivU1 U0 ⟨n, hm⟩ := by
            unfold pivLP pivU1
            by_cases hbi : (pivotSearch U0 ⟨n, hm⟩).2 = ⟨n, hm⟩
            · rw [if_pos hbi, if_pos hbi]
              exact ih1
            · rw [if_neg hbi, if_neg hbi, applyLP_cons, ih1]
              exact matrixMultiply_permMat _ _ _
          have hdiv : pivU1 U0 ⟨n, hm⟩ ⟨n, hm⟩ ⟨n, hm⟩ ≠ 0 := pivU1_div_ne_zero U0 _ hz
          have hzrow : ∀ c : Fin m, c < ⟨n, hm⟩ → pivU1 U0 ⟨n, hm⟩ ⟨n, hm⟩ c = 0 := by
            intro c hc
            exact inv1b ⟨n, hm⟩ c (Fin.lt_def.mp hc) hc
          refine ⟨?_, ?_, ?_⟩
          · rw [hlp, applyLP_cons, inv1a, hU,
              LFactorizationMultiply_eq (pivU1 U0 ⟨n, hm⟩) ⟨n, hm⟩ hdiv hzrow]
            rfl
          · intro r c hcn1 hcr
            rw [hU]
            unfold LFactorizationMultiply
            dsimp only
            rcases Nat.lt_succ_iff_lt_or_eq.mp hcn1 with hcn | hcn
            · have hci : c < (⟨n, hm⟩ : Fin m) := by
                rw [Fin.lt_def]
                exact hcn
              have hcine : ¬ c = (⟨n, hm⟩ : Fin m) :=
                fun hc => absurd (hc ▸ hci) (lt_irrefl _)
              have hic : ¬ (⟨n, hm⟩ : Fin m) < c :=
                fun hc => absurd (lt_trans hc hci) (lt_irrefl _)
              rcases lt_trichotomy (⟨n, hm⟩ : Fin m) r with hir | hir | hir
              · rw [if_pos hir, if_neg hcine, if_neg hic]
                exact inv1b r c hcn hcr
              · rw [← hir, if_neg (lt_irrefl _), if_pos rfl, if_neg hic, if_neg hcine]
                exact hzrow c hci
              · rw [if_neg (fun hc : (⟨n, hm⟩ : Fin m) < r =>
                      absurd (lt_trans hc hir) (lt_irrefl _)),
                    if_neg (fun hc : r = (⟨n, hm⟩ : Fin m) =>
                      absurd (hc ▸ hir) (lt_irrefl _))]
                exact inv1b r c hcn hcr
            · have hci : c = (⟨n, hm⟩ : Fin m) := Fin.ext hcn
              have hir : (⟨n, hm⟩ : Fin m) < r := hci ▸ hcr
              rw [if_pos hir, if_pos hci]
          · intro t htn1
            rw [hU]
            unfold LFactorizationMultiply
            dsimp only
            rcases Nat.lt_succ_iff_lt_or_eq.mp htn1 with htn | htn
            · have hti : t < (⟨n, hm⟩ : Fin m) := by
                rw [Fin.lt_def]
                exact htn
              rw [if_neg (fun hc : (⟨n, hm⟩ : Fin m) < t =>
                    absurd (lt_trans hc hti) (lt_irrefl _)),
                  if_neg (fun hc : t = (⟨n, hm⟩ : Fin m) =>
                    absurd (hc ▸ hti) (lt_irrefl _))]
              exact inv1c t htn
            · have hti : t = (⟨n, hm⟩ : Fin m) := Fin.ext htn
              rw [hti, if_neg (lt_irrefl _), if_pos rfl, if_neg (lt_irrefl _), if_pos rfl]
    · rw [dif_neg hm] at h
      obtain ⟨ih1, ih2, ih3⟩ := ih U lp h
      refine ⟨ih1, ?_, ?_⟩
      · intro r c hcn1 hcr
        refine ih2 r c ?_ hcr
        have := c.isLt
        omega
      · intro t htn1
        refine ih3 t ?_
        have := t.isLt
        omega

/-- C1: whenever factorizeMatrix succeeds on an m×m matrix M, applying the
resulting LP list front to back as left multiplications to a fresh copy of M
reproduces the stored U exactly, and that U is upper triangular with unit
diagonal: every entry strictly below the diagonal is exactly 0 and every
diagonal entry is exactly 1. -/
theorem factorize_reproduces_U {m : Nat} (M : Mat m)
    (h : (factorizeMatrix M).2.2 = true) :
    applyLP (factorizeMatrix M).2.1 M = (factorizeMatrix M).1 ∧
    (∀ r c : Fin m, c < r → (factorizeMatrix M).1 r c = 0) ∧
    (∀ i : Fin m, (factorizeMatrix M).1 i i = 1) := by
  rcases hf : factorizeMatrix M with ⟨U, lp, ok⟩
  rw [hf] at h
  dsimp only at h
  subst h
  obtain ⟨h1, h2, h3⟩ := factorRun_inv M m U lp hf
  exact ⟨h1, fun r c hcr => h2 r c c.isLt hcr, fun i => h3 i i.isLt⟩

/-- Witness for C1 on the 1×1 identity matrix, where factorization succeeds. -/
theorem factorize_reproduces_U_witness :
    (factorizeMatrix (identityMat 1)).2.2 = true ∧
    (applyLP (factorizeMatrix (identityMat 1)).2.1 (identityMat 1) =
        (factorizeMatrix (identityMat 1)).1 ∧
      (∀ r c : Fin 1, c < r → (factorizeMatrix (identityMat 1)).1 r c = 0) ∧
      (∀ i : Fin 1, (factorizeMatrix (identityMat 1)).1 i i = 1)) :=
  ⟨by with_unfolding_all decide,
   factorize_reproduces_U (identityMat 1) (by with_unfolding_all decide)⟩

/-- A stage returns the false flag exactly when its pivot search came back
numerically zero. -/
theorem factorStep_false_iff {m : Nat} (U0 : Mat m) (lp : List (LPElement m))
    (i : Fin m) :
    (factorStep U0 lp i).2.2 = false ↔ isZero (pivotSearch U0 i).1 := by
  unfold factorStep
  by_cases hz : isZero (pivotSearch U0 i).1
  · rw [if_pos hz]
    simp [hz]
  · rw [if_neg hz]
    simp [hz]

/-- A thrown NoPivot persists through the remaining stages. -/
theorem factorRun_false_mono {m : Nat} (M : Mat m) (n : Nat)
    (hfalse : (factorRun M n).2.2 = false) :
    (factorRun M (n + 1)).2.2 = false := by
  rw [factorRun]
  by_cases hm : n < m
  · rw [dif_pos hm]
    rcases hst : factorRun M n with ⟨U0, lp0, ok0⟩
    rw [hst] at hfalse
    dsimp only at hfalse
    subst hfalse
    simp
  · rw [dif_neg hm]
    exact hfalse

/-- A thrown NoPivot at stage n persists to any later stage count. -/
theorem factorRun_false_le {m : Nat} (M : Mat m) (n : Nat) :
    ∀ N, n ≤ N → (factorRun M n).2.2 = false → (factorRun M N).2.2 = false := by
  intro N
  induction N with
  | zero =>
    intro hle h
    rwa [Nat.le_zero.mp hle] at h
  | succ N ihN =>
    intro hle h
    by_cases hn : n ≤ N
    · exact factorRun_false_mono M N (ihN hn h)
    · have : n = N + 1 := by omega
      rwa [this] at h

/-- When factorizeMatrix fails, some stage was reached with success and its
pivot search returned a numerically zero largestElement. -/
theorem factorRun_false_exists {m : Nat} (M : Mat m) :
    ∀ N, (factorRun M N).2.2 = false →
      ∃ (n : Nat) (hn : n < m) (U0 : Mat m) (lp0 : List (LPElement m)),
        factorRun M n = (U0, lp0, true) ∧ isZero (pivotSearch U0 ⟨n, hn⟩).1 := by
  intro N
  induction N with
  | zero =>
    intro h
    simp [factorRun] at h
  | succ N ihN =>
    intro h
    rw [factorRun] at h
    by_cases hm : N < m
    · rw [dif_pos hm] at h
      rcases hst : factorRun M N with ⟨U0, lp0, ok0⟩
      rw [hst] at h
      cases ok0 with
      | false =>
        refine ihN ?_
        rw [hst]
      | true =>
        simp only [if_pos] at h
        exact ⟨N, hm, U0, lp0, hst, (factorStep_false_iff U0 lp0 ⟨N, hm⟩).mp h⟩
    · rw [dif_neg hm] at h
      exact ihN h

/-- A numerically zero pivot search at a successfully reached stage makes the
whole factorization fail. -/
theorem factorRun_stage_fails {m : Nat} (M : Mat m) (n : Nat) (hn : n < m)
    (U0 : Mat m) (lp0 : List (LPElement m))
    (hst : factorRun M n = (U0, lp0, true))
    (hz : isZero (pivotSearch U0 ⟨n, hn⟩).1) :
    (factorizeMatrix M).2.2 = false := by
  have hsucc : (factorRun M (n + 1)).2.2 = false := by
    rw [factorRun, dif_pos hn, hst]
    simp only [if_pos]
    rw [factorStep, if_pos hz]
  exact factorRun_false_le M (n + 1) m hn hsucc

/-- C4: at every stage of factorizeMatrix reached with success, the chosen
pivot row lies at or below the stage row, largestElement is the absolute
value of its column entry, that value is strictly greater than the value of
every earlier candidate row (so equal earlier rows are kept), and no
candidate row beats it under the tolerance-based strict comparison; and
factorizeMatrix throws NoPivot if and only if at some reached stage the
pivot search returns a numerically zero largestElement. -/
theorem pivot_policy_and_noPivot {m : Nat} (M : Mat m) :
    (∀ (n : Nat) (hn : n < m) (U0 : Mat m) (lp0 : List (LPElement m)),
      factorRun M n = (U0, lp0, true) →
        (pivotSearch U0 ⟨n, hn⟩).1 = |U0 (pivotSearch U0 ⟨n, hn⟩).2 ⟨n, hn⟩| ∧
        (⟨n, hn⟩ : Fin m) ≤ (pivotSearch U0 ⟨n, hn⟩).2 ∧
        (∀ j : Fin m, (⟨n, hn⟩ : Fin m) ≤ j → j < (pivotSearch U0 ⟨n, hn⟩).2 →
          |U0 j ⟨n, hn⟩| < |U0 (pivotSearch U0 ⟨n, hn⟩).2 ⟨n, hn⟩|) ∧
        (∀ j : Fin m, (⟨n, hn⟩ : Fin m) ≤ j →
          ¬ floatGt |U0 j ⟨n, hn⟩| (pivotSearch U0 ⟨n, hn⟩).1)) ∧
    ((factorizeMatrix M).2.2 = false ↔
      ∃ (n : Nat) (hn : n < m) (U0 : Mat m) (lp0 : List (LPElement m)),
        factorRun M n = (U0, lp0, true) ∧ isZero (pivotSearch U0 ⟨n, hn⟩).1) := by
  refine ⟨?_, ?_, ?_⟩
  · intro n hn U0 lp0 _
    exact pivotSearch_spec U0 ⟨n, hn⟩
  · exact factorRun_false_exists M m
  · rintro ⟨n, hn, U0, lp0, hst, hz⟩
    exact factorRun_stage_fails M n hn U0 lp0 hst hz

/-- Witness for C4 at the S3 matrix, stage 0, where the pivot search picks
row 1 (entry 4, the largest magnitude in column 0). -/
theorem pivot_policy_and_noPivot_witness :
    factorRun M3 0 = (M3, [], true) ∧
    (0 : Fin 3) ≤ (pivotSearch M3 0).2 :=
  ⟨rfl, ((pivot_policy_and_noPivot M3).1 0 (by norm_num) M3 [] rfl).2.1⟩

/-- C2: the claim as stated is false on the code.  On a fresh 1-dimensional
engine, setB0 with the zero matrix throws NoPivot, yet B0 — observable state —
has already been overwritten by the memcpy that precedes factorization:
its (0,0) entry changed from 1 to 0. -/
theorem setB0_failure_mutates_state :
    (setB0 (initialState 1) zeroMat1).2 = false ∧
    ¬ (setB0 (initialState 1) zeroMat1).1.B0 0 0 = (initialState 1).B0 0 0 := by
  with_unfolding_all decide

/-- C2 (amended): a setB0/factorizeMatrix call that fails with NoPivot leaves
the eta stack and the factorization flag unchanged, but overwrites B0 with its
argument and leaves U and the LP list holding the partial factorization of
that argument; invertB0 called with a non-empty eta stack fails with
EtasPresent and produces no result at all. -/
theorem setB0_failure_partial_state {m : Nat} (s : BasisFactorization m) (M : Mat m)
    (hfail : (setB0 s M).2 = false) :
    (setB0 s M).1.etas = s.etas ∧
    (setB0 s M).1.factorizationEnabled = s.factorizationEnabled ∧
    (setB0 s M).1.B0 = M ∧
    (setB0 s M).1.U = (factorizeMatrix M).1 ∧
    (setB0 s M).1.LP = (factorizeMatrix M).2.1 ∧
    (∀ s2 : BasisFactorization m, s2.etas ≠ [] → invertB0 s2 = none) := by
  refine ⟨rfl, rfl, rfl, rfl, rfl, ?_⟩
  intro s2 h2
  unfold invertB0
  rw [if_neg h2]

/-- Witness for the amended C2 theorem at a concrete failing input. -/
theorem setB0_failure_partial_state_witness :
    (setB0 (initialState 1) zeroMat1).2 = false ∧
    (setB0 (initialState 1) zeroMat1).1.etas = (initialState 1).etas :=
  ⟨by with_unfolding_all decide,
   (setB0_failure_partial_state (initialState 1) zeroMat1 (by with_unfolding_all decide)).1⟩

/-- C3: the claim as stated is false on the code.  After setB0 with the S3
matrix, the forward transformation of [2,8,10] is [−1,2,2] (the exact solution
of that linear system); its middle entry is 2, not within ε of the claimed 3. -/
theorem known_matrix_claim_false :
    (setB0 (initialState 3) M3).2 = true ∧
    ¬ (∀ i : Fin 3, |(forwardTransformation (setB0 (initialState 3) M3).1 ![2, 8, 10]).2 i -
        ![(-1 : ℚ), 3, 2] i| < eps) := by
  with_unfolding_all decide

/-- C3 (amended): after setB0 with [[2,4,−2],[4,9,−3],[−2,−3,7]] factorization
succeeds, applying the LP list to that matrix yields a U with unit diagonal,
and forward([2,8,10]) returns [−1,2,2] within ε. -/
theorem known_matrix_scenario :
    (setB0 (initialState 3) M3).2 = true ∧
    (∀ i : Fin 3, applyLP (setB0 (initialState 3) M3).1.LP M3 i i = 1) ∧
    (∀ i : Fin 3, |(forwardTransformation (setB0 (initialState 3) M3).1 ![2, 8, 10]).2 i -
        ![(-1 : ℚ), 2, 2] i| < eps) := by
  with_unfolding_all decide

/-- C5: on a fresh 3-dimensional engine, after pushEtaMatrix(1, [1,2,0]),
forward([1,4,5]) returns [−1,2,5] and backward([1,4,5]) returns [1,3/2,5]. -/
theorem single_column_update_scenario :
    (forwardTransformation (pushEtaMatrix (initialState 3) 1 ![1, 2, 0]).1 ![1, 4, 5]).2 =
      ![(-1 : ℚ), 2, 5] ∧
    backwardTransformation (pushEtaMatrix (initialState 3) 1 ![1, 2, 0]).1 ![1, 4, 5] =
      ![(1 : ℚ), 3 / 2, 5] := by
  with_unfolding_all decide

/-- C6: pushEtaMatrix appends the eta at the tail of the stack; when the
grown stack does not exceed the threshold, or factorization is disabled,
nothing else happens; when it exceeds the threshold and factorization is
enabled, the engine immediately condenses the etas and refactorizes B0;
when factorization is disabled the stack is only ever appended to. -/
theorem pushEta_append_then_refactorize {m : Nat} (s : BasisFactorization m)
    (k : Fin m) (v : Vec m) :
    (¬ (REFACTORIZATION_THRESHOLD < s.etas.length + 1 ∧ s.factorizationEnabled = true) →
      pushEtaMatrix s k v =
        (⟨s.B0, s.U, s.LP, s.etas ++ [⟨k, v⟩], s.factorizationEnabled, s.tempY⟩, true)) ∧
    ((REFACTORIZATION_THRESHOLD < s.etas.length + 1 ∧ s.factorizationEnabled = true) →
      pushEtaMatrix s k v =
        refactorize (condenseEtas
          ⟨s.B0, s.U, s.LP, s.etas ++ [⟨k, v⟩], s.factorizationEnabled, s.tempY⟩)) ∧
    (s.factorizationEnabled = false →
      (pushEtaMatrix s k v).1.etas = s.etas ++ [⟨k, v⟩]) := by
  have hlen : (s.etas ++ [(⟨k, v⟩ : EtaMatrix m)]).length = s.etas.length + 1 := by
    simp
  refine ⟨?_, ?_, ?_⟩
  · intro hneg
    unfold pushEtaMatrix
    rw [if_neg]
    simpa [hlen] using hneg
  · intro hpos
    unfold pushEtaMatrix
    rw [if_pos]
    simpa [hlen] using hpos
  · intro hoff
    unfold pushEtaMatrix
    rw [if_neg]
    intro hc
    rw [hoff] at hc
    exact Bool.false_ne_true hc.2

/-- Witness for C6 at a concrete non-triggering input. -/
theorem pushEta_append_then_refactorize_witness :
    ¬ (REFACTORIZATION_THRESHOLD < (initialState 3).etas.length + 1 ∧
        (initialState 3).factorizationEnabled = true) ∧
    pushEtaMatrix (initialState 3) 1 ![1, 2, 0] =
      (⟨(initialState 3).B0, (initialState 3).U, (initialState 3).LP,
        (initialState 3).etas ++ [⟨1, ![1, 2, 0]⟩],
        (initialState 3).factorizationEnabled, (initialState 3).tempY⟩, true) :=
  ⟨by with_unfolding_all decide,
   (pushEta_append_then_refactorize (initialState 3) 1 ![1, 2, 0]).1
     (by with_unfolding_all decide)⟩

/-- C7: condenseEtas folds the eta stack into B0 — each eta right-multiplies
the running B0, changing exactly its columnIndex column, every written scalar
snapped — and leaves the eta stack empty, the LP list empty and U zeroed;
afterwards the implicit basis is exactly the new B0. -/
theorem condense_folds_etas_and_clears {m : Nat} (s : BasisFactorization m) :
    (condenseEtas s).B0 =
      s.etas.foldl
        (fun B e => fun i j =>
          if j = e.columnIndex then snap (matrixMultiply B (etaMat e) i j) else B i j)
        s.B0 ∧
    (condenseEtas s).etas = [] ∧
    (condenseEtas s).LP = [] ∧
    (condenseEtas s).U = (fun _ _ => 0) ∧
    implicitBasis (condenseEtas s) = (condenseEtas s).B0 := by
  refine ⟨?_, rfl, rfl, rfl, rfl⟩
  have h : (applyEtaRight : Mat m → EtaMatrix m → Mat m) =
      fun B e => fun i j =>
        if j = e.columnIndex then snap (matrixMultiply B (etaMat e) i j) else B i j := by
    funext B e i j
    unfold applyEtaRight matrixMultiply etaMat
    by_cases hj : j = e.columnIndex
    · rw [if_pos hj, if_pos hj]
      congr 1
      exact Finset.sum_congr rfl (fun k _ => by rw [if_pos hj])
    · rw [if_neg hj, if_neg hj]
  show s.etas.foldl applyEtaRight s.B0 = _
  rw [h]

/-- C8: invertB0 fails with EtasPresent exactly when the eta stack is
non-empty; with an empty eta stack and an empty LP list it returns the
identity matrix whatever the contents of U — the empty LP list alone is
taken as the oracle that B0 is the identity, and U is never read. -/
theorem invertB0_etasPresent_and_identity {m : Nat} (s : BasisFactorization m) :
    (invertB0 s = none ↔ ¬ s.etas = []) ∧
    (s.etas = [] → s.LP = [] → ∀ V : Mat m,
      invertB0 ⟨s.B0, V, s.LP, s.etas, s.factorizationEnabled, s.tempY⟩ =
        some (identityMat m)) := by
  constructor
  · unfold invertB0
    by_cases he : s.etas = []
    · rw [if_pos he]
      by_cases hlp : s.LP = []
      · rw [if_pos hlp]
        simp [he]
      · rw [if_neg hlp]
        simp [he]
    · rw [if_neg he]
      simp [he]
  · intro he hlp V
    unfold invertB0
    rw [if_pos he, if_pos hlp]

/-- Witness for C8 at a concrete input with empty eta stack and LP list. -/
theorem invertB0_etasPresent_and_identity_witness :
    (initialState 2).etas = [] ∧
    invertB0 ⟨(initialState 2).B0, identityMat 2, (initialState 2).LP,
      (initialState 2).etas, (initialState 2).factorizationEnabled,
      (initialState 2).tempY⟩ = some (identityMat 2) :=
  ⟨rfl, (invertB0_etasPresent_and_identity (initialState 2)).2 rfl rfl (identityMat 2)⟩

/-- C9: forwardTransformation is deterministic and read-only on the
mathematical state: it leaves B0, U, the LP list, the eta stack and the
factorization flag unchanged (only the scratch _tempY and the output are
written), so running it twice in succession on the same instance and input
produces identical outputs. -/
theorem forward_deterministic_readonly {m : Nat} (s : BasisFactorization m) (y : Vec m) :
    (forwardTransformation (forwardTransformation s y).1 y).2 =
      (forwardTransformation s y).2 ∧
    (forwardTransformation s y).1.B0 = s.B0 ∧
    (forwardTransformation s y).1.U = s.U ∧
    (forwardTransformation s y).1.LP = s.LP ∧
    (forwardTransformation s y).1.etas = s.etas ∧
    (forwardTransformation s y).1.factorizationEnabled = s.factorizationEnabled := by
  unfold forwardTransformation
  by_cases h : s.etas = [] ∧ s.LP = []
  · simp [h]
  · simp [h]

/-- C10: with factorization enabled, pushEtaMatrix always returns with at
most REFACTORIZATION_THRESHOLD etas on the stack: either the appended eta
kept the stack within the threshold, or the trigger emptied it. -/
theorem pushEta_stack_bounded {m : Nat} (s : BasisFactorization m) (k : Fin m)
    (v : Vec m) (h : s.factorizationEnabled = true) :
    (pushEtaMatrix s k v).1.etas.length ≤ REFACTORIZATION_THRESHOLD := by
  unfold pushEtaMatrix
  by_cases hc : REFACTORIZATION_THRESHOLD <
      (s.etas ++ [(⟨k, v⟩ : EtaMatrix m)]).length ∧ s.factorizationEnabled = true
  · rw [if_pos hc]
    exact Nat.zero_le _
  · rw [if_neg hc]
    have : ¬ REFACTORIZATION_THRESHOLD < (s.etas ++ [(⟨k, v⟩ : EtaMatrix m)]).length := by
      intro hlt
      exact hc ⟨hlt, h⟩
    exact Nat.le_of_not_lt this

/-- Witness for C10 at a concrete enabled state. -/
theorem pushEta_stack_bounded_witness :
    (initialState 3).factorizationEnabled = true ∧
    (pushEtaMatrix (initialState 3) 1 ![1, 2, 0]).1.etas.length ≤
      REFACTORIZATION_THRESHOLD :=
  ⟨rfl, pushEta_stack_bounded (initialState 3) 1 ![1, 2, 0] rfl⟩
